import Mathlib

/-
Verification of the DigitScanner feedforward neural network core (src/src/FNN.hpp).

The dense matrix type and its operations live in Matrix.hpp, which is not among the
sources; they are modelled from the specification (spec.md, section 4.1).  All the
network code (layer classes, constructor, feedforward, feedforward_complete,
backpropagation_cross_entropy, random_init_values, SGD_batch) is embedded from
src/src/FNN.hpp.  Scalars of the C++ template parameter T (float, double,
long double) are modelled by an arbitrary field K; the claims about the concrete
sigmoid range are settled at K = ℝ with the logistic function of the glossary.
-/

namespace DS

/-- Modelled from the spec: the dense matrix of section 4.1 (Matrix.hpp is absent from
the sources).  A matrix is a row count `I`, a column count `J` and a total entry
function; values at indices outside the bounds are representational junk that no
operation of the network reads. -/
@[ext]
structure Mat (K : Type) where
  I : Nat
  J : Nat
  entry : Nat → Nat → K

variable {K : Type} [Field K]

/-- Modelled from the spec: construction by dimensions is zero-filled (section 3). -/
def matZero (i j : Nat) : Mat K := ⟨i, j, fun _ _ => 0⟩

/-- Junk matrix used as the default value of list indexing. -/
def matDefault : Mat K := matZero 0 0

/-- Modelled from the spec: in-place addition `A += B` of same-shape matrices
(section 4.1 (b)); the result keeps the receiver's shape. -/
def matAdd (A B : Mat K) : Mat K := ⟨A.I, A.J, fun i j => A.entry i j + B.entry i j⟩

/-- Modelled from the spec: in-place subtraction `A -= B` (section 4.1 (b)). -/
def matSub (A B : Mat K) : Mat K := ⟨A.I, A.J, fun i j => A.entry i j - B.entry i j⟩

/-- Modelled from the spec: matrix product (section 4.1 (c)), producing a new matrix of
the outer dimensions; the summation length is the receiver's column count. -/
def matMul (A B : Mat K) : Mat K :=
  ⟨A.I, B.J, fun i j => ∑ k ∈ Finset.range A.J, A.entry i k * B.entry k j⟩

/-- Modelled from the spec: in-place scalar multiplication `A *= c` (section 4.1 (d)). -/
def matScale (c : K) (A : Mat K) : Mat K := ⟨A.I, A.J, fun i j => A.entry i j * c⟩

/-- Modelled from the spec: element-wise (Hadamard) product, in place on the receiver
(section 4.1 (e)). -/
def element_wise_product (A B : Mat K) : Mat K :=
  ⟨A.I, A.J, fun i j => A.entry i j * B.entry i j⟩

/-- Modelled from the spec: transpose (section 4.1 (f); `self_transpose` in FNN.hpp). -/
def transposeMat (A : Mat K) : Mat K := ⟨A.J, A.I, fun i j => A.entry j i⟩

/-- Modelled from the spec: the element-wise activation of section 4.1 (g).  The scalar
function itself is kept as a parameter of the embedding; the concrete logistic sigmoid
is defined separately over ℝ. -/
def matSigmoid (sig : K → K) (A : Mat K) : Mat K := ⟨A.I, A.J, fun i j => sig (A.entry i j)⟩

/-- Modelled from the spec: `fill` with a constant (section 4.1 (h)). -/
def matFill (A : Mat K) (c : K) : Mat K := ⟨A.I, A.J, fun _ _ => c⟩

/-- FNNFullyConnectedLayer (FNN.hpp, lines 127-149): a node count, the predecessor layer
(flattened here to the only datum the network reads through the pointer, namely
`previous_layer->get_nb_nodes()`), a weight matrix `W` of shape
(nb_nodes × previous nodes) and a bias matrix `B` of shape (nb_nodes × 1). -/
structure FNNFullyConnectedLayer (K : Type) where
  nb_nodes : Int
  prev_nb_nodes : Int
  W : Mat K
  B : Mat K

/-- Junk layer used as the default value of list indexing. -/
def layerDefault : FNNFullyConnectedLayer K := ⟨0, 0, matDefault, matDefault⟩

/-- FNN (FNN.hpp, lines 68-98): the stored layer-size vector and the array of fully
connected layers (the input layer carries no data beyond `layers[0]`). -/
structure FNN (K : Type) where
  layers : List Int
  fully_connected_layers : List (FNNFullyConnectedLayer K)

/-- Junk network used as the default value of `Option.getD`. -/
def netDefault : FNN K := ⟨[], []⟩

/-- random_init_values (FNN.hpp, lines 369-380).  The source constructs a fresh
`std::default_random_engine` with the default seed on every call and draws row by row:
for each row `i`, the `J` weights of the row and then the row's bias, all from the one
engine, so the value at position `(i, j)` of `W` is the draw number `i*(J+1)+j` and the
bias of row `i` is the draw number `i*(J+1)+J`.  Modelled from the spec: the numeric
values produced by `std::normal_distribution` are standard-library internals absent from
the sources; each draw is modelled as an unspecified deterministic function (`gw` for the
weight distribution, `gb` for the bias distribution) of the draw position and of the
predecessor node count, which determines both the weight deviation `1/sqrt(prev)` and
the interleaving pattern of the two distributions on the shared engine. -/
def random_init_values (gw gb : Nat → Nat → K) (nb_nodes prev_nodes : Nat) :
    Mat K × Mat K :=
  (⟨nb_nodes, prev_nodes, fun i j => gw (i * (prev_nodes + 1) + j) prev_nodes⟩,
   ⟨nb_nodes, 1, fun i _ => gb (i * (prev_nodes + 1) + prev_nodes) prev_nodes⟩)

/-- FNN constructor (FNN.hpp, lines 157-170).  The source performs no validation at all:
it reads `p_layers[0]` (undefined behaviour on an empty vector, modelled as `none`) and
then builds one fully connected layer per remaining entry, each chained to the previous
layer and randomly initialized.  `nb_fully_connected_layers` is `p_layers.size() - 1`. -/
def mkFNN (gw gb : Nat → Nat → K) (p_layers : List Int) : Option (FNN K) :=
  match p_layers with
  | [] => none
  | _ :: _ =>
      some { layers := p_layers
             fully_connected_layers := (List.range (p_layers.length - 1)).map (fun i =>
               { nb_nodes := p_layers.getD (i+1) 0
                 prev_nb_nodes := p_layers.getD i 0
                 W := (random_init_values gw gb (p_layers.getD (i+1) 0).toNat
                        (p_layers.getD i 0).toNat).1
                 B := (random_init_values gw gb (p_layers.getD (i+1) 0).toNat
                        (p_layers.getD i 0).toNat).2 }) }

/-- Dimension bookkeeping established by the constructor, as an executable check. -/
def wfFNN (net : FNN K) : Bool :=
  (net.layers.length == net.fully_connected_layers.length + 1) &&
  (List.range net.fully_connected_layers.length).all (fun k =>
    let l := net.fully_connected_layers.getD k layerDefault
    (l.W.I == (net.layers.getD (k+1) 0).toNat) && (l.W.J == (net.layers.getD k 0).toNat) &&
    (l.B.I == (net.layers.getD (k+1) 0).toNat) && (l.B.J == 1))

/-- Loop body shared by the two feedforward variants (FNN.hpp, lines 336-340 and
355-361): `a = W; a *= activation; a += B; a.sigmoid()`. -/
def layerStep (sig : K → K) (l : FNNFullyConnectedLayer K) (a : Mat K) : Mat K :=
  matSigmoid sig (matAdd (matMul l.W a) l.B)

/-- Loop of feedforward_complete (FNN.hpp, lines 355-362): every new activation is pushed
and the loop continues from the activation just pushed. -/
def ffcLoop (sig : K → K) : List (FNNFullyConnectedLayer K) → Mat K → List (Mat K)
  | [], _ => []
  | l :: ls, a =>
      let a2 := layerStep sig l a
      a2 :: ffcLoop sig ls a2

/-- feedforward_complete (FNN.hpp, lines 351-364): returns the whole activation vector,
starting with the input itself. -/
def feedforward_complete (net : FNN K) (sig : K → K) (X : Mat K) : List (Mat K) :=
  X :: ffcLoop sig net.fully_connected_layers X

/-- Loop of feedforward (FNN.hpp, lines 330-344): the source keeps the activation vector
but frees every intermediate activation as soon as it is consumed and returns only
`activations[nb_fully_connected_layers]`, so only the previous activation is carried. -/
def ffLoop (sig : K → K) : List (FNNFullyConnectedLayer K) → Mat K → Mat K
  | [], a => a
  | l :: ls, a => ffLoop sig ls (layerStep sig l a)

/-- feedforward (FNN.hpp, lines 330-344): the memory-optimized variant returning only the
final activation. -/
def feedforward (net : FNN K) (sig : K → K) (X : Mat K) : Mat K :=
  ffLoop sig net.fully_connected_layers X

/-- State-passing form of the feedforward loop, recording the parameter state the call
leaves behind: each iteration reads `l.W` and `l.B` and hands the layer back untouched
(the body of FNN.hpp lines 334-342 assigns only to the local `a`; Modelled from the spec:
the `Matrix(ptr, true)` view construction of the absent Matrix.hpp is read-only,
sections 4.4 and 9). -/
def ffLoopS (sig : K → K) : List (FNNFullyConnectedLayer K) → Mat K →
    List (FNNFullyConnectedLayer K) × Mat K
  | [], a => ([], a)
  | l :: ls, a =>
      let r := ffLoopS sig ls (layerStep sig l a)
      (l :: r.1, r.2)

/-- State-passing feedforward: the network as left by the call, with the output. -/
def feedforwardS (net : FNN K) (sig : K → K) (X : Mat K) : FNN K × Mat K :=
  let r := ffLoopS sig net.fully_connected_layers X
  ({ net with fully_connected_layers := r.1 }, r.2)

/-- State-passing form of the feedforward_complete loop (FNN.hpp lines 355-362):
each iteration reads the layer's parameters and hands the layer back untouched. -/
def ffcLoopS (sig : K → K) : List (FNNFullyConnectedLayer K) → Mat K →
    List (FNNFullyConnectedLayer K) × List (Mat K)
  | [], _ => ([], [])
  | l :: ls, a =>
      let a2 := layerStep sig l a
      let r := ffcLoopS sig ls a2
      (l :: r.1, a2 :: r.2)

/-- State-passing feedforward_complete. -/
def feedforward_completeS (net : FNN K) (sig : K → K) (X : Mat K) :
    FNN K × List (Mat K) :=
  let r := ffcLoopS sig net.fully_connected_layers X
  ({ net with fully_connected_layers := r.1 }, X :: r.2)

/-- Backward loop of backpropagation_cross_entropy (FNN.hpp, lines 300-320).  The source
iterates `i` from `nb_fully_connected_layers - 2` down to `0`, carrying the error matrix
`D`; here `backLoop m D` performs the iterations for `i = m-1` down to `0`, with `D` the
error already computed for index `m`.  One iteration computes
`D := Wt(i+1) * D`, `SP := (fill-1 of shape (A.I,1)) - A(i+1)` element-wise-times
`A(i+1)`, `D := D ° SP`, `NCW := D * A(i)^t`, and stores `NCW` and `D` at index `i`. -/
def backLoop (net : FNN K) (sig : K → K) (acts : List (Mat K)) :
    Nat → Mat K → List (Mat K) × List (Mat K)
  | 0, _ => ([], [])
  | m + 1, D =>
      let Wt := transposeMat (net.fully_connected_layers.getD (m+1) layerDefault).W
      let D1 := matMul Wt D
      let A1 := acts.getD (m+1) matDefault
      let SP := element_wise_product (matSub (matFill (matZero A1.I 1) 1) A1) A1
      let D2 := element_wise_product D1 SP
      let NCW := matMul D2 (transposeMat (acts.getD m matDefault))
      let r := backLoop net sig acts m D2
      (r.1 ++ [NCW], r.2 ++ [D2])

/-- backpropagation_cross_entropy (FNN.hpp, lines 281-322): feedforward_complete, then
the output-layer error `D = activations[L] - training_output`, the output-layer nablas
`NCW = D * activations[L-1]^t` and `NCB = D`, then the backward loop for the earlier
layers.  The function returns the pair (nabla_CW, nabla_CB), each indexed in layer
order.  The source is only defined for networks with at least one fully connected
layer (otherwise it indexes `activations[-1]`). -/
def backpropagation_cross_entropy (net : FNN K) (sig : K → K)
    (training_input training_output : Mat K) : List (Mat K) × List (Mat K) :=
  let activations := feedforward_complete net sig training_input
  let L := net.fully_connected_layers.length
  let D := matSub (activations.getD L matDefault) training_output
  let NCW := matMul D (transposeMat (activations.getD (L-1) matDefault))
  let r := backLoop net sig activations (L-1) D
  (r.1 ++ [NCW], r.2 ++ [D])

/-- Gradient-accumulation phase of SGD_batch (FNN.hpp, lines 389-403): per-layer nabla
sums are created with the layer dimensions and filled with zero, then for each example
of the batch the backpropagation nablas are added in. -/
def gradAccum (net : FNN K) (sig : K → K) (batch_input batch_output : List (Mat K))
    (blen : Nat) : List (Mat K) × List (Mat K) :=
  let L := net.fully_connected_layers.length
  let zW := (List.range L).map (fun i =>
    matFill (matZero (net.layers.getD (i+1) 0).toNat (net.layers.getD i 0).toNat) 0)
  let zB := (List.range L).map (fun i =>
    matFill (matZero (net.layers.getD (i+1) 0).toNat 1) 0)
  (List.range blen).foldl (fun acc k =>
    let dn := backpropagation_cross_entropy net sig (batch_input.getD k matDefault)
      (batch_output.getD k matDefault)
    (List.zipWith matAdd acc.1 dn.1, List.zipWith matAdd acc.2 dn.2)) (zW, zB)

/-- SGD_batch (FNN.hpp, lines 387-414): accumulate the nabla sums over the batch, scale
them by `eta / batch_len`, then update every layer in place:
`W *= (1 - alpha*eta/training_set_len); W -= nabla_CW; B -= nabla_CB`. -/
def SGD_batch (net : FNN K) (sig : K → K) (batch_input batch_output : List (Mat K))
    (training_set_len batch_len : Int) (eta alpha : K) : FNN K :=
  let L := net.fully_connected_layers.length
  let acc := gradAccum net sig batch_input batch_output batch_len.toNat
  let nW := acc.1.map (fun M => matScale (eta / (batch_len : K)) M)
  let nB := acc.2.map (fun M => matScale (eta / (batch_len : K)) M)
  { net with fully_connected_layers := (List.range L).map (fun i =>
      let l := net.fully_connected_layers.getD i layerDefault
      { l with
        W := matSub (matScale (1 - alpha * eta / (training_set_len : K)) l.W)
               (nW.getD i matDefault)
        B := matSub l.B (nB.getD i matDefault) }) }

/-- Modelled from the spec: the logistic sigmoid of the glossary, `1/(1+e^-x)`
(the element-wise implementation lives in the absent Matrix.hpp). -/
noncomputable def sigmoid (x : ℝ) : ℝ := 1 / (1 + Real.exp (-x))

/-- Error matrices of claim C1, written exactly as the claim states them, by downward
recursion: `DclaimAux j` is the error of layer index `L-1-j`, so `DclaimAux 0` is the
output-layer error `A[L] - y` and
`DclaimAux (j+1) = (W[k+1]^t * DclaimAux j) ° (A[k+1] ° (1 - A[k+1]))`
with `k+1 = L-1-j`. -/
def DclaimAux (net : FNN K) (sig : K → K) (x y : Mat K) : Nat → Mat K
  | 0 =>
      matSub ((feedforward_complete net sig x).getD
        net.fully_connected_layers.length matDefault) y
  | j + 1 =>
      let L := net.fully_connected_layers.length
      let k1 := L - 1 - j
      let A1 := (feedforward_complete net sig x).getD k1 matDefault
      element_wise_product
        (matMul (transposeMat ((net.fully_connected_layers.getD k1 layerDefault).W))
          (DclaimAux net sig x y j))
        (element_wise_product A1 (matSub (matFill (matZero A1.I 1) 1) A1))

/-- Error matrix `D[k]` of claim C1, indexed by the layer index `k`. -/
def Dclaim (net : FNN K) (sig : K → K) (x y : Mat K) (k : Nat) : Mat K :=
  DclaimAux net sig x y (net.fully_connected_layers.length - 1 - k)

/-- Per-layer raw weight-gradient sum of claim C2, written as an entry-wise sum over the
batch of the backpropagation weight gradients. -/
def gradSumW (net : FNN K) (sig : K → K) (batch_input batch_output : List (Mat K))
    (blen : Nat) (i : Nat) : Mat K :=
  ⟨(net.layers.getD (i+1) 0).toNat, (net.layers.getD i 0).toNat,
   fun r c => ∑ k ∈ Finset.range blen,
     ((backpropagation_cross_entropy net sig (batch_input.getD k matDefault)
        (batch_output.getD k matDefault)).1.getD i matDefault).entry r c⟩

/-- Per-layer raw bias-gradient sum of claim C2, entry-wise over the batch. -/
def gradSumB (net : FNN K) (sig : K → K) (batch_input batch_output : List (Mat K))
    (blen : Nat) (i : Nat) : Mat K :=
  ⟨(net.layers.getD (i+1) 0).toNat, 1,
   fun r c => ∑ k ∈ Finset.range blen,
     ((backpropagation_cross_entropy net sig (batch_input.getD k matDefault)
        (batch_output.getD k matDefault)).2.getD i matDefault).entry r c⟩

/-! Helper lemmas. -/

/-- Indexing a map over `List.range`. -/
lemma getD_map_range {α : Type} (f : Nat → α) {n i : Nat} (h : i < n) (d : α) :
    ((List.range n).map f).getD i d = f i := by
  rw [List.getD_eq_getElem _ _ (by simpa using h)]
  simp

/-- Length of the feedforward_complete loop output. -/
lemma ffcLoop_length (sig : K → K) :
    ∀ (ls : List (FNNFullyConnectedLayer K)) (a : Mat K),
      (ffcLoop sig ls a).length = ls.length
  | [], _ => rfl
  | _ :: ls, a => by simp [ffcLoop, ffcLoop_length sig ls]

/-- Recurrence satisfied by the activations pushed by the feedforward_complete loop. -/
lemma ffcLoop_getD (sig : K → K) :
    ∀ (ls : List (FNNFullyConnectedLayer K)) (a : Mat K) (i : Nat), i < ls.length →
      (a :: ffcLoop sig ls a).getD (i+1) matDefault =
        layerStep sig (ls.getD i layerDefault)
          ((a :: ffcLoop sig ls a).getD i matDefault)
  | [], _, i, h => absurd h (by simp)
  | l :: ls, a, 0, _ => rfl
  | l :: ls, a, i + 1, h => by
      have := ffcLoop_getD sig ls (layerStep sig l a) i (by simpa using h)
      simpa [ffcLoop] using this

/-- The single-output loop computes the last activation of the full-trace loop. -/
lemma ffLoop_eq_ffcLoop_getD (sig : K → K) :
    ∀ (ls : List (FNNFullyConnectedLayer K)) (a : Mat K),
      ffLoop sig ls a = (a :: ffcLoop sig ls a).getD ls.length matDefault
  | [], a => rfl
  | l :: ls, a => by
      simpa [ffLoop, ffcLoop] using ffLoop_eq_ffcLoop_getD sig ls (layerStep sig l a)

/-! Claim theorems. -/

/-- C3: for every network with L fully-connected layers and every input matrix of shape
(input-layer-node-count x 1), feedforward_complete returns exactly L+1 activations in
which entry 0 is the input itself and entry i+1 equals
sigmoid(W[i] * entry_i + B[i]) for every fully-connected layer i. -/
theorem claim_C3_feedforward_complete_trace (net : FNN K) (sig : K → K) (X : Mat K)
    (hI : X.I = (net.layers.getD 0 0).toNat) (hJ : X.J = 1) :
    (feedforward_complete net sig X).length = net.fully_connected_layers.length + 1 ∧
    (feedforward_complete net sig X).getD 0 matDefault = X ∧
    ∀ i < net.fully_connected_layers.length,
      (feedforward_complete net sig X).getD (i+1) matDefault =
        matSigmoid sig
          (matAdd (matMul (net.fully_connected_layers.getD i layerDefault).W
            ((feedforward_complete net sig X).getD i matDefault))
            (net.fully_connected_layers.getD i layerDefault).B) := by
  refine ⟨by simp [feedforward_complete, ffcLoop_length], rfl, fun i hi => ?_⟩
  exact ffcLoop_getD sig net.fully_connected_layers X i hi

/-- Witness for C3 at a concrete one-layer network over ℚ. -/
theorem claim_C3_witness :
    ((⟨1, 1, fun _ _ => 0⟩ : Mat ℚ).I =
      (((⟨[1, 1], [⟨1, 1, ⟨1, 1, fun _ _ => 0⟩, ⟨1, 1, fun _ _ => 0⟩⟩]⟩ :
        FNN ℚ)).layers.getD 0 0).toNat) ∧
    ((⟨1, 1, fun _ _ => 0⟩ : Mat ℚ).J = 1) ∧
    ((feedforward_complete (⟨[1, 1], [⟨1, 1, ⟨1, 1, fun _ _ => 0⟩, ⟨1, 1, fun _ _ => 0⟩⟩]⟩ :
        FNN ℚ) (fun t => t) ⟨1, 1, fun _ _ => 0⟩).length =
      (⟨[1, 1], [⟨1, 1, ⟨1, 1, fun _ _ => 0⟩, ⟨1, 1, fun _ _ => 0⟩⟩]⟩ :
        FNN ℚ).fully_connected_layers.length + 1) :=
  ⟨rfl, rfl,
    (claim_C3_feedforward_complete_trace
      (⟨[1, 1], [⟨1, 1, ⟨1, 1, fun _ _ => 0⟩, ⟨1, 1, fun _ _ => 0⟩⟩]⟩ : FNN ℚ)
      (fun t => t) ⟨1, 1, fun _ _ => 0⟩ rfl rfl).1⟩

/-- C4: for every network and every input matrix of shape (input-layer-node-count x 1),
the memory-optimized feedforward equals the last entry (index L) of the full trace
returned by feedforward_complete. -/
theorem claim_C4_feedforward_refines_complete (net : FNN K) (sig : K → K) (X : Mat K)
    (hI : X.I = (net.layers.getD 0 0).toNat) (hJ : X.J = 1) :
    feedforward net sig X =
      (feedforward_complete net sig X).getD net.fully_connected_layers.length
        matDefault :=
  ffLoop_eq_ffcLoop_getD sig net.fully_connected_layers X

/-- Witness for C4 at a concrete one-layer network over ℚ. -/
theorem claim_C4_witness :
    ((⟨1, 1, fun _ _ => 0⟩ : Mat ℚ).I =
      (((⟨[1, 1], [⟨1, 1, ⟨1, 1, fun _ _ => 0⟩, ⟨1, 1, fun _ _ => 0⟩⟩]⟩ :
        FNN ℚ)).layers.getD 0 0).toNat) ∧
    ((⟨1, 1, fun _ _ => 0⟩ : Mat ℚ).J = 1) ∧
    (feedforward (⟨[1, 1], [⟨1, 1, ⟨1, 1, fun _ _ => 0⟩, ⟨1, 1, fun _ _ => 0⟩⟩]⟩ :
        FNN ℚ) (fun t => t) ⟨1, 1, fun _ _ => 0⟩ =
      (feedforward_complete
        (⟨[1, 1], [⟨1, 1, ⟨1, 1, fun _ _ => 0⟩, ⟨1, 1, fun _ _ => 0⟩⟩]⟩ : FNN ℚ)
        (fun t => t) ⟨1, 1, fun _ _ => 0⟩).getD
        (⟨[1, 1], [⟨1, 1, ⟨1, 1, fun _ _ => 0⟩, ⟨1, 1, fun _ _ => 0⟩⟩]⟩ :
          FNN ℚ).fully_connected_layers.length matDefault) :=
  ⟨rfl, rfl,
    claim_C4_feedforward_refines_complete
      (⟨[1, 1], [⟨1, 1, ⟨1, 1, fun _ _ => 0⟩, ⟨1, 1, fun _ _ => 0⟩⟩]⟩ : FNN ℚ)
      (fun t => t) ⟨1, 1, fun _ _ => 0⟩ rfl rfl⟩

/-- Entries of the stored size vector are nonnegative when all given sizes are
positive. -/
lemma getD_nonneg_of_pos {p : List Int} (hpos : ∀ x ∈ p, 0 < x) {i : Nat}
    (hi : i < p.length) : 0 ≤ p.getD i 0 := by
  rw [List.getD_eq_getElem _ _ hi]
  exact le_of_lt (hpos _ (List.getElem_mem hi))

/-- Shape of the layer built at index k by the constructor. -/
lemma mkFNN_layer (gw gb : Nat → Nat → K) (p : List Int) (k : Nat)
    (hne : p ≠ []) (hk : k < p.length - 1) :
    ((mkFNN gw gb p).getD netDefault).fully_connected_layers.getD k layerDefault =
      { nb_nodes := p.getD (k+1) 0
        prev_nb_nodes := p.getD k 0
        W := (random_init_values gw gb (p.getD (k+1) 0).toNat (p.getD k 0).toNat).1
        B := (random_init_values gw gb (p.getD (k+1) 0).toNat (p.getD k 0).toNat).2 } := by
  match p, hne with
  | a :: q, _ =>
      show ((List.range ((a :: q).length - 1)).map _).getD k layerDefault = _
      rw [getD_map_range _ hk]

/-- C5: for every network constructed from a layer-size sequence [n0..nL] of length at
least 2 with all entries positive, and every layer index k below L, layer k's weight
matrix has shape (n(k+1) x nk), its bias matrix has shape (n(k+1) x 1), and its
predecessor is layer k-1 (the input layer when k = 0), recorded through the
predecessor's node count nk. -/
theorem claim_C5_constructed_shapes (gw gb : Nat → Nat → K) (p : List Int) (k : Nat)
    (hlen : 2 ≤ p.length) (hpos : ∀ x ∈ p, 0 < x) (hk : k < p.length - 1) :
    ((((mkFNN gw gb p).getD netDefault).fully_connected_layers.getD k
        layerDefault).W.I : Int) = p.getD (k+1) 0 ∧
    ((((mkFNN gw gb p).getD netDefault).fully_connected_layers.getD k
        layerDefault).W.J : Int) = p.getD k 0 ∧
    ((((mkFNN gw gb p).getD netDefault).fully_connected_layers.getD k
        layerDefault).B.I : Int) = p.getD (k+1) 0 ∧
    (((mkFNN gw gb p).getD netDefault).fully_connected_layers.getD k
        layerDefault).B.J = 1 ∧
    (((mkFNN gw gb p).getD netDefault).fully_connected_layers.getD k
        layerDefault).prev_nb_nodes = p.getD k 0 ∧
    (((mkFNN gw gb p).getD netDefault).fully_connected_layers.getD k
        layerDefault).nb_nodes = p.getD (k+1) 0 := by
  have hne : p ≠ [] := by
    intro h
    rw [h] at hlen
    exact absurd hlen (by simp)
  have hk1 : k + 1 < p.length := by omega
  have hk0 : k < p.length := by omega
  rw [mkFNN_layer gw gb p k hne hk]
  exact ⟨Int.toNat_of_nonneg (getD_nonneg_of_pos hpos hk1),
    Int.toNat_of_nonneg (getD_nonneg_of_pos hpos hk0),
    Int.toNat_of_nonneg (getD_nonneg_of_pos hpos hk1), rfl, rfl, rfl⟩

/-- Witness for C5 at the sequence [2, 3, 1] over ℚ, layer 0. -/
theorem claim_C5_witness :
    2 ≤ ([2, 3, 1] : List Int).length ∧ (∀ x ∈ ([2, 3, 1] : List Int), 0 < x) ∧
    0 < ([2, 3, 1] : List Int).length - 1 ∧
    ((((mkFNN (fun _ _ => (0:ℚ)) (fun _ _ => 0) [2, 3, 1]).getD
        netDefault).fully_connected_layers.getD 0 layerDefault).W.I : Int) =
      ([2, 3, 1] : List Int).getD 1 0 :=
  ⟨by decide, by decide, by decide,
    (claim_C5_constructed_shapes (fun _ _ => (0:ℚ)) (fun _ _ => 0) [2, 3, 1] 0
      (by decide) (by decide) (by decide)).1⟩

/-- C7 counterexample: the constructor performs no validation.  Constructing from the
single-element sequence [5] succeeds (no InvalidTopology failure) and yields a usable
network with zero fully connected layers whose feedforward is the identity. -/
theorem claim_C7_counterexample :
    mkFNN (fun _ _ => (0:ℚ)) (fun _ _ => 0) [5] = some ⟨[5], []⟩ ∧
    feedforward (⟨[5], []⟩ : FNN ℚ) (fun t => t) ⟨5, 1, fun _ _ => 1/2⟩ =
      ⟨5, 1, fun _ _ => 1/2⟩ := by
  constructor
  · show some _ = _
    simp [mkFNN]
  · rfl

/-- C7 amended: construction performs no validation; every nonempty layer-size sequence
(including single-element sequences and sequences with nonpositive entries) constructs a
network with length-1 fully connected layers, and no failure is raised.  Only the empty
sequence has no defined result (the source indexes p_layers[0], undefined behaviour). -/
theorem claim_C7_no_validation (gw gb : Nat → Nat → K) (p : List Int) (hne : p ≠ []) :
    ∃ net, mkFNN gw gb p = some net ∧ net.layers = p ∧
      net.fully_connected_layers.length = p.length - 1 := by
  match p, hne with
  | a :: q, _ => exact ⟨_, rfl, rfl, by simp [mkFNN]⟩

/-- Witness for C7's amended statement at the sequence [5] over ℚ. -/
theorem claim_C7_witness :
    ([5] : List Int) ≠ [] ∧
    ∃ net, mkFNN (fun _ _ => (0:ℚ)) (fun _ _ => 0) [5] = some net ∧
      net.layers = [5] ∧ net.fully_connected_layers.length = ([5] : List Int).length - 1 :=
  ⟨by decide, claim_C7_no_validation (fun _ _ => (0:ℚ)) (fun _ _ => 0) [5] (by decide)⟩

/-- C10: initialization is deterministic.  random_init_values restarts the deterministic
default-seeded engine on every call, so any two constructed layers (from the same or
from different constructions) whose node count and predecessor node count agree receive
element-for-element identical initial weights and biases. -/
theorem claim_C10_deterministic_init (gw gb : Nat → Nat → K) (p q : List Int)
    (k k' : Nat) (hk : k + 1 < p.length) (hk' : k' + 1 < q.length)
    (h0 : p.getD k 0 = q.getD k' 0) (h1 : p.getD (k+1) 0 = q.getD (k'+1) 0) :
    (((mkFNN gw gb p).getD netDefault).fully_connected_layers.getD k
        layerDefault).W =
      (((mkFNN gw gb q).getD netDefault).fully_connected_layers.getD k'
        layerDefault).W ∧
    (((mkFNN gw gb p).getD netDefault).fully_connected_layers.getD k
        layerDefault).B =
      (((mkFNN gw gb q).getD netDefault).fully_connected_layers.getD k'
        layerDefault).B := by
  have hnep : p ≠ [] := by intro h; rw [h] at hk; exact absurd hk (by simp)
  have hneq : q ≠ [] := by intro h; rw [h] at hk'; exact absurd hk' (by simp)
  rw [mkFNN_layer gw gb p k hnep (by omega), mkFNN_layer gw gb q k' hneq (by omega),
    h0, h1]
  exact ⟨rfl, rfl⟩

/-- Witness for C10: layer 0 of a network from [2, 3] matches layer 1 of a network from
[1, 2, 3] over ℚ, since both have 3 nodes after a 2-node predecessor. -/
theorem claim_C10_witness :
    0 + 1 < ([2, 3] : List Int).length ∧ 1 + 1 < ([1, 2, 3] : List Int).length ∧
    ([2, 3] : List Int).getD 0 0 = ([1, 2, 3] : List Int).getD 1 0 ∧
    ([2, 3] : List Int).getD 1 0 = ([1, 2, 3] : List Int).getD 2 0 ∧
    (((mkFNN (fun _ _ => (0:ℚ)) (fun _ _ => 0) [2, 3]).getD
        netDefault).fully_connected_layers.getD 0 layerDefault).W =
      (((mkFNN (fun _ _ => (0:ℚ)) (fun _ _ => 0) [1, 2, 3]).getD
        netDefault).fully_connected_layers.getD 1 layerDefault).W :=
  ⟨by decide, by decide, by decide, by decide,
    (claim_C10_deterministic_init (fun _ _ => (0:ℚ)) (fun _ _ => 0) [2, 3] [1, 2, 3] 0 1
      (by decide) (by decide) (by decide) (by decide)).1⟩

/-- The state-passing feedforward loop returns the layer list untouched and computes the
pure loop's value. -/
lemma ffLoopS_spec (sig : K → K) :
    ∀ (ls : List (FNNFullyConnectedLayer K)) (a : Mat K),
      ffLoopS sig ls a = (ls, ffLoop sig ls a)
  | [], _ => rfl
  | l :: ls, a => by simp [ffLoopS, ffLoop, ffLoopS_spec sig ls]

/-- The state-passing feedforward_complete loop returns the layer list untouched and
computes the pure loop's value. -/
lemma ffcLoopS_spec (sig : K → K) :
    ∀ (ls : List (FNNFullyConnectedLayer K)) (a : Mat K),
      ffcLoopS sig ls a = (ls, ffcLoop sig ls a)
  | [], _ => rfl
  | l :: ls, a => by simp [ffcLoopS, ffcLoop, ffcLoopS_spec sig ls]

/-- C9: for every network and every valid input matrix, feedforward and
feedforward_complete leave every layer's weight and bias matrix unchanged: the network
state each call leaves behind equals the network it started from, and only the
activation values are produced. -/
theorem claim_C9_read_only_parameters (net : FNN K) (sig : K → K) (X : Mat K)
    (hI : X.I = (net.layers.getD 0 0).toNat) (hJ : X.J = 1) :
    (feedforwardS net sig X).1 = net ∧
    (feedforward_completeS net sig X).1 = net ∧
    (feedforwardS net sig X).2 = feedforward net sig X ∧
    (feedforward_completeS net sig X).2 = feedforward_complete net sig X := by
  refine ⟨?_, ?_, ?_, ?_⟩ <;>
    simp [feedforwardS, feedforward_completeS, feedforward, feedforward_complete,
      ffLoopS_spec, ffcLoopS_spec]

/-- Witness for C9 at a concrete one-layer network over ℚ. -/
theorem claim_C9_witness :
    ((⟨1, 1, fun _ _ => 0⟩ : Mat ℚ).I =
      (((⟨[1, 1], [⟨1, 1, ⟨1, 1, fun _ _ => 0⟩, ⟨1, 1, fun _ _ => 0⟩⟩]⟩ :
        FNN ℚ)).layers.getD 0 0).toNat) ∧
    ((⟨1, 1, fun _ _ => 0⟩ : Mat ℚ).J = 1) ∧
    (feedforwardS (⟨[1, 1], [⟨1, 1, ⟨1, 1, fun _ _ => 0⟩, ⟨1, 1, fun _ _ => 0⟩⟩]⟩ :
        FNN ℚ) (fun t => t) ⟨1, 1, fun _ _ => 0⟩).1 =
      (⟨[1, 1], [⟨1, 1, ⟨1, 1, fun _ _ => 0⟩, ⟨1, 1, fun _ _ => 0⟩⟩]⟩ : FNN ℚ) :=
  ⟨rfl, rfl,
    (claim_C9_read_only_parameters
      (⟨[1, 1], [⟨1, 1, ⟨1, 1, fun _ _ => 0⟩, ⟨1, 1, fun _ _ => 0⟩⟩]⟩ : FNN ℚ)
      (fun t => t) ⟨1, 1, fun _ _ => 0⟩ rfl rfl).1⟩

/-- Lengths of the two lists produced by the backward loop. -/
lemma backLoop_length (net : FNN K) (sig : K → K) (acts : List (Mat K)) :
    ∀ (m : Nat) (D : Mat K),
      (backLoop net sig acts m D).1.length = m ∧
      (backLoop net sig acts m D).2.length = m
  | 0, _ => ⟨rfl, rfl⟩
  | m + 1, D => by
      have h := backLoop_length net sig acts m
      simp only [backLoop, List.length_append, List.length_cons, List.length_nil]
      exact ⟨by rw [(h _).1], by rw [(h _).2]⟩

/-- Swapping the factors of an inner Hadamard product does not change the outer one. -/
lemma element_wise_product_swap (D X Y : Mat K) :
    element_wise_product D (element_wise_product X Y) =
      element_wise_product D (element_wise_product Y X) := by
  refine Mat.ext rfl rfl ?_
  funext i j
  show D.entry i j * (X.entry i j * Y.entry i j) =
    D.entry i j * (Y.entry i j * X.entry i j)
  ring

/-- Invariant of the backward loop: called with the claimed error matrix of index m, it
fills indices k below m with the claimed nablas. -/
lemma backLoop_spec (net : FNN K) (sig : K → K) (x y : Mat K) :
    ∀ (m : Nat), m + 1 ≤ net.fully_connected_layers.length →
      ∀ k, k < m →
        ((backLoop net sig (feedforward_complete net sig x) m
            (DclaimAux net sig x y
              (net.fully_connected_layers.length - 1 - m))).1.getD k matDefault =
          matMul (Dclaim net sig x y k)
            (transposeMat ((feedforward_complete net sig x).getD k matDefault))) ∧
        ((backLoop net sig (feedforward_complete net sig x) m
            (DclaimAux net sig x y
              (net.fully_connected_layers.length - 1 - m))).2.getD k matDefault =
          Dclaim net sig x y k)
  | 0, _, k, hk => absurd hk (by omega)
  | m + 1, hm, k, hk => by
      set L := net.fully_connected_layers.length with hLdef
      have hj : L - 1 - m = (L - 1 - (m + 1)) + 1 := by omega
      have hk1 : L - 1 - (L - 1 - (m + 1)) = m + 1 := by omega
      have hD2 :
          element_wise_product
            (matMul
              (transposeMat (net.fully_connected_layers.getD (m+1) layerDefault).W)
              (DclaimAux net sig x y (L - 1 - (m + 1))))
            (element_wise_product
              (matSub
                (matFill
                  (matZero ((feedforward_complete net sig x).getD (m+1) matDefault).I 1)
                  1)
                ((feedforward_complete net sig x).getD (m+1) matDefault))
              ((feedforward_complete net sig x).getD (m+1) matDefault)) =
          DclaimAux net sig x y (L - 1 - m) := by
        rw [hj]
        show _ = DclaimAux net sig x y ((L - 1 - (m + 1)) + 1)
        conv_rhs => rw [DclaimAux]
        rw [← hLdef, hk1]
        exact element_wise_product_swap _ _ _
      have hrec := backLoop_spec net sig x y m (by omega)
      have hlen := backLoop_length net sig (feedforward_complete net sig x) m
        (DclaimAux net sig x y (L - 1 - m))
      simp only [backLoop, hD2]
      rcases Nat.lt_or_ge k m with hkm | hkm
      · constructor
        · rw [List.getD_append _ _ _ _ (by rw [(hlen).1]; exact hkm)]
          exact (hrec k hkm).1
        · rw [List.getD_append _ _ _ _ (by rw [(hlen).2]; exact hkm)]
          exact (hrec k hkm).2
      · have hkeq : k = m := by omega
        subst hkeq
        constructor
        · rw [List.getD_append_right _ _ _ _ (by rw [(hlen).1])]
          rw [(hlen).1]
          simp only [Nat.sub_self, List.getD_cons_zero]
          have : Dclaim net sig x y k = DclaimAux net sig x y (L - 1 - k) := rfl
          rw [this]
        · rw [List.getD_append_right _ _ _ _ (by rw [(hlen).2])]
          rw [(hlen).2]
          simp only [Nat.sub_self, List.getD_cons_zero]
          rfl

/-- C1: for every network with L >= 1 fully-connected layers and every training example
of matching shapes, backpropagation_cross_entropy returns one weight-gradient and one
bias-gradient matrix per layer, in layer order, satisfying (with the activation trace A
from feedforward_complete and the error matrices Dclaim defined exactly as the claim
states): Dclaim (L-1) = A[L] - y, and for every k below L, NablaW[k] =
Dclaim k * transpose(A[k]) and NablaB[k] = Dclaim k. -/
theorem claim_C1_backpropagation_formulas (net : FNN K) (sig : K → K) (x y : Mat K)
    (hL : 1 ≤ net.fully_connected_layers.length)
    (hxI : x.I = (net.layers.getD 0 0).toNat) (hxJ : x.J = 1)
    (hyI : y.I = (net.layers.getD net.fully_connected_layers.length 0).toNat)
    (hyJ : y.J = 1) :
    (backpropagation_cross_entropy net sig x y).1.length =
      net.fully_connected_layers.length ∧
    (backpropagation_cross_entropy net sig x y).2.length =
      net.fully_connected_layers.length ∧
    Dclaim net sig x y (net.fully_connected_layers.length - 1) =
      matSub ((feedforward_complete net sig x).getD
        net.fully_connected_layers.length matDefault) y ∧
    ∀ k < net.fully_connected_layers.length,
      ((backpropagation_cross_entropy net sig x y).1.getD k matDefault =
        matMul (Dclaim net sig x y k)
          (transposeMat ((feedforward_complete net sig x).getD k matDefault))) ∧
      ((backpropagation_cross_entropy net sig x y).2.getD k matDefault =
        Dclaim net sig x y k) := by
  set L := net.fully_connected_layers.length with hLdef
  have htop : matSub ((feedforward_complete net sig x).getD L matDefault) y =
      DclaimAux net sig x y (L - 1 - (L - 1)) := by
    rw [Nat.sub_self]
    rfl
  have hlen := backLoop_length net sig (feedforward_complete net sig x) (L - 1)
    (matSub ((feedforward_complete net sig x).getD L matDefault) y)
  refine ⟨?_, ?_, ?_, ?_⟩
  · simp only [backpropagation_cross_entropy, List.length_append, List.length_cons,
      List.length_nil, ← hLdef]
    rw [(hlen).1]
    omega
  · simp only [backpropagation_cross_entropy, List.length_append, List.length_cons,
      List.length_nil, ← hLdef]
    rw [(hlen).2]
    omega
  · show DclaimAux net sig x y (L - 1 - (L - 1)) = _
    rw [Nat.sub_self]
    rfl
  · intro k hkL
    have hspec := backLoop_spec net sig x y (L - 1) (by omega)
    rcases Nat.lt_or_ge k (L - 1) with hkm | hkm
    · have h1 := (hspec k hkm).1
      have h2 := (hspec k hkm).2
      rw [← htop] at h1 h2
      constructor
      · simp only [backpropagation_cross_entropy, ← hLdef]
        rw [List.getD_append _ _ _ _ (by rw [(hlen).1]; exact hkm)]
        exact h1
      · simp only [backpropagation_cross_entropy, ← hLdef]
        rw [List.getD_append _ _ _ _ (by rw [(hlen).2]; exact hkm)]
        exact h2
    · have hkeq : k = L - 1 := by omega
      subst hkeq
      constructor
      · simp only [backpropagation_cross_entropy, ← hLdef]
        rw [List.getD_append_right _ _ _ _ (by rw [(hlen).1])]
        rw [(hlen).1]
        simp only [Nat.sub_self, List.getD_cons_zero]
        rw [show Dclaim net sig x y (L - 1) = DclaimAux net sig x y (L - 1 - (L - 1))
          from rfl, Nat.sub_self]
        rfl
      · simp only [backpropagation_cross_entropy, ← hLdef]
        rw [List.getD_append_right _ _ _ _ (by rw [(hlen).2])]
        rw [(hlen).2]
        simp only [Nat.sub_self, List.getD_cons_zero]
        rw [show Dclaim net sig x y (L - 1) = DclaimAux net sig x y (L - 1 - (L - 1))
          from rfl, Nat.sub_self]
        rfl

/-- Witness for C1 at a concrete one-layer network over ℚ. -/
theorem claim_C1_witness :
    1 ≤ (⟨[1, 1], [⟨1, 1, ⟨1, 1, fun _ _ => 0⟩, ⟨1, 1, fun _ _ => 0⟩⟩]⟩ :
      FNN ℚ).fully_connected_layers.length ∧
    ((⟨1, 1, fun _ _ => 0⟩ : Mat ℚ).I =
      (((⟨[1, 1], [⟨1, 1, ⟨1, 1, fun _ _ => 0⟩, ⟨1, 1, fun _ _ => 0⟩⟩]⟩ :
        FNN ℚ)).layers.getD 0 0).toNat) ∧
    ((backpropagation_cross_entropy
      (⟨[1, 1], [⟨1, 1, ⟨1, 1, fun _ _ => 0⟩, ⟨1, 1, fun _ _ => 0⟩⟩]⟩ : FNN ℚ)
      (fun t => t) ⟨1, 1, fun _ _ => 0⟩ ⟨1, 1, fun _ _ => 1⟩).1.length =
      (⟨[1, 1], [⟨1, 1, ⟨1, 1, fun _ _ => 0⟩, ⟨1, 1, fun _ _ => 0⟩⟩]⟩ :
        FNN ℚ).fully_connected_layers.length) :=
  ⟨by decide, rfl,
    (claim_C1_backpropagation_formulas
      (⟨[1, 1], [⟨1, 1, ⟨1, 1, fun _ _ => 0⟩, ⟨1, 1, fun _ _ => 0⟩⟩]⟩ : FNN ℚ)
      (fun t => t) ⟨1, 1, fun _ _ => 0⟩ ⟨1, 1, fun _ _ => 1⟩
      (by decide) rfl rfl rfl rfl).1⟩

/-- Lengths of the two nabla lists returned by backpropagation. -/
lemma backprop_length (net : FNN K) (sig : K → K) (x y : Mat K)
    (hL : 1 ≤ net.fully_connected_layers.length) :
    (backpropagation_cross_entropy net sig x y).1.length =
      net.fully_connected_layers.length ∧
    (backpropagation_cross_entropy net sig x y).2.length =
      net.fully_connected_layers.length := by
  have hlen := backLoop_length net sig (feedforward_complete net sig x)
    (net.fully_connected_layers.length - 1)
    (matSub ((feedforward_complete net sig x).getD
      net.fully_connected_layers.length matDefault) y)
  simp only [backpropagation_cross_entropy, List.length_append, List.length_cons,
    List.length_nil]
  rw [(hlen).1, (hlen).2]
  omega

/-- Zipping a map over a range with a list of the same length, via matAdd. -/
lemma zipWith_matAdd_map_range (f : Nat → Mat K) (lst : List (Mat K)) (L : Nat)
    (h : lst.length = L) :
    List.zipWith matAdd ((List.range L).map f) lst =
      (List.range L).map (fun i => matAdd (f i) (lst.getD i matDefault)) := by
  apply List.ext_getElem
  · simp [h]
  · intro i hi hi2
    have hiL : i < L := by simpa using hi2
    have hilst : i < lst.length := by omega
    simp only [List.getElem_zipWith, List.getElem_map, List.getElem_range]
    rw [List.getD_eq_getElem _ _ hilst]

/-- One more example in the accumulation adds its nablas to the running sums. -/
lemma gradAccum_succ (net : FNN K) (sig : K → K)
    (batch_input batch_output : List (Mat K)) (n : Nat) :
    gradAccum net sig batch_input batch_output (n + 1) =
      (List.zipWith matAdd (gradAccum net sig batch_input batch_output n).1
        (backpropagation_cross_entropy net sig (batch_input.getD n matDefault)
          (batch_output.getD n matDefault)).1,
       List.zipWith matAdd (gradAccum net sig batch_input batch_output n).2
        (backpropagation_cross_entropy net sig (batch_input.getD n matDefault)
          (batch_output.getD n matDefault)).2) := by
  unfold gradAccum
  rw [List.range_succ, List.foldl_append]
  rfl

/-- Closed form of the gradient-accumulation phase: per layer, the entry-wise sum over
the batch of the backpropagation nablas. -/
lemma gradAccum_spec (net : FNN K) (sig : K → K)
    (batch_input batch_output : List (Mat K))
    (hL : 1 ≤ net.fully_connected_layers.length) :
    ∀ n, gradAccum net sig batch_input batch_output n =
      ((List.range net.fully_connected_layers.length).map
        (fun i => gradSumW net sig batch_input batch_output n i),
       (List.range net.fully_connected_layers.length).map
        (fun i => gradSumB net sig batch_input batch_output n i))
  | 0 => by
      unfold gradAccum
      simp only [List.range_zero, List.foldl_nil, Prod.mk.injEq]
      constructor
      · apply List.map_congr_left
        intro i _
        refine Mat.ext rfl rfl ?_
        funext r c
        simp [matFill, matZero, gradSumW]
      · apply List.map_congr_left
        intro i _
        refine Mat.ext rfl rfl ?_
        funext r c
        simp [matFill, matZero, gradSumB]
  | n + 1 => by
      rw [gradAccum_succ, gradAccum_spec net sig batch_input batch_output hL n]
      have hlen := backprop_length net sig (batch_input.getD n matDefault)
        (batch_output.getD n matDefault) hL
      simp only [Prod.mk.injEq]
      constructor
      · rw [zipWith_matAdd_map_range _ _ _ (hlen).1]
        apply List.map_congr_left
        intro i hi
        have hiL : i < net.fully_connected_layers.length := List.mem_range.mp hi
        refine Mat.ext rfl rfl ?_
        funext r c
        show (∑ k ∈ Finset.range n, _) + _ = ∑ k ∈ Finset.range (n+1), _
        rw [Finset.sum_range_succ]
      · rw [zipWith_matAdd_map_range _ _ _ (hlen).2]
        apply List.map_congr_left
        intro i hi
        have hiL : i < net.fully_connected_layers.length := List.mem_range.mp hi
        refine Mat.ext rfl rfl ?_
        funext r c
        show (∑ k ∈ Finset.range n, _) + _ = ∑ k ∈ Finset.range (n+1), _
        rw [Finset.sum_range_succ]

/-- C2: for every network, batch of batch_len >= 1 examples, training_set_len >= 1,
learning rate eta and weight-decay coefficient alpha, SGD_batch accumulates the
per-example backpropagation gradients from zero-initialized sums, scales them by
eta/batch_len, and replaces each layer's weights by W*(1 - alpha*eta/training_set_len)
minus the scaled weight sum and each layer's biases by B minus the scaled bias sum,
leaving the node counts and the size vector unchanged. -/
theorem claim_C2_SGD_batch_update (net : FNN K) (sig : K → K)
    (batch_input batch_output : List (Mat K)) (training_set_len batch_len : Int)
    (eta alpha : K) (hL : 1 ≤ net.fully_connected_layers.length)
    (hN : 1 ≤ training_set_len) (hb : 1 ≤ batch_len)
    (hbin : batch_input.length = batch_len.toNat)
    (hbout : batch_output.length = batch_len.toNat) :
    (SGD_batch net sig batch_input batch_output training_set_len batch_len eta
      alpha).layers = net.layers ∧
    (SGD_batch net sig batch_input batch_output training_set_len batch_len eta
      alpha).fully_connected_layers.length = net.fully_connected_layers.length ∧
    ∀ i < net.fully_connected_layers.length,
      (SGD_batch net sig batch_input batch_output training_set_len batch_len eta
        alpha).fully_connected_layers.getD i layerDefault =
      { nb_nodes := (net.fully_connected_layers.getD i layerDefault).nb_nodes
        prev_nb_nodes := (net.fully_connected_layers.getD i layerDefault).prev_nb_nodes
        W := matSub
          (matScale (1 - alpha * eta / (training_set_len : K))
            (net.fully_connected_layers.getD i layerDefault).W)
          (matScale (eta / (batch_len : K))
            (gradSumW net sig batch_input batch_output batch_len.toNat i))
        B := matSub (net.fully_connected_layers.getD i layerDefault).B
          (matScale (eta / (batch_len : K))
            (gradSumB net sig batch_input batch_output batch_len.toNat i)) } := by
  refine ⟨rfl, by simp [SGD_batch], fun i hi => ?_⟩
  show ((List.range net.fully_connected_layers.length).map _).getD i layerDefault = _
  rw [getD_map_range _ hi]
  rw [gradAccum_spec net sig batch_input batch_output hL batch_len.toNat]
  simp only [List.map_map]
  rw [show ((List.range net.fully_connected_layers.length).map
      ((fun M => matScale (eta / (batch_len : K)) M) ∘
        (fun j => gradSumW net sig batch_input batch_output batch_len.toNat j))).getD i
      matDefault =
    matScale (eta / (batch_len : K))
      (gradSumW net sig batch_input batch_output batch_len.toNat i)
    from getD_map_range _ hi _]
  rw [show ((List.range net.fully_connected_layers.length).map
      ((fun M => matScale (eta / (batch_len : K)) M) ∘
        (fun j => gradSumB net sig batch_input batch_output batch_len.toNat j))).getD i
      matDefault =
    matScale (eta / (batch_len : K))
      (gradSumB net sig batch_input batch_output batch_len.toNat i)
    from getD_map_range _ hi _]

/-- Witness for C2 at a concrete one-layer network over ℚ with one example. -/
theorem claim_C2_witness :
    1 ≤ (⟨[1, 1], [⟨1, 1, ⟨1, 1, fun _ _ => 0⟩, ⟨1, 1, fun _ _ => 0⟩⟩]⟩ :
      FNN ℚ).fully_connected_layers.length ∧
    (1 : Int) ≤ 4 ∧ (1 : Int) ≤ 1 ∧
    ([(⟨1, 1, fun _ _ => 0⟩ : Mat ℚ)].length = (1 : Int).toNat) ∧
    ([(⟨1, 1, fun _ _ => 1⟩ : Mat ℚ)].length = (1 : Int).toNat) ∧
    ((SGD_batch (⟨[1, 1], [⟨1, 1, ⟨1, 1, fun _ _ => 0⟩, ⟨1, 1, fun _ _ => 0⟩⟩]⟩ :
        FNN ℚ) (fun t => t) [⟨1, 1, fun _ _ => 0⟩] [⟨1, 1, fun _ _ => 1⟩] 4 1
        (1/2) (1/3)).layers =
      (⟨[1, 1], [⟨1, 1, ⟨1, 1, fun _ _ => 0⟩, ⟨1, 1, fun _ _ => 0⟩⟩]⟩ :
        FNN ℚ).layers) :=
  ⟨by decide, by decide, by decide, by decide, by decide,
    (claim_C2_SGD_batch_update
      (⟨[1, 1], [⟨1, 1, ⟨1, 1, fun _ _ => 0⟩, ⟨1, 1, fun _ _ => 0⟩⟩]⟩ : FNN ℚ)
      (fun t => t) [⟨1, 1, fun _ _ => 0⟩] [⟨1, 1, fun _ _ => 1⟩] 4 1 (1/2) (1/3)
      (by decide) (by decide) (by decide) (by decide) (by decide)).1⟩

/-- C6: splitting a batch in two, accumulating the raw (pre-scaling) gradient sums of
each half against the same fixed parameters, and summing the two results per layer,
yields exactly the gradient sums accumulated once over the whole batch. -/
theorem claim_C6_batch_split_invariance (net : FNN K) (sig : K → K)
    (b1in b1out b2in b2out : List (Mat K))
    (hL : 1 ≤ net.fully_connected_layers.length)
    (h1 : b1out.length = b1in.length) :
    gradAccum net sig (b1in ++ b2in) (b1out ++ b2out)
        (b1in.length + b2in.length) =
      (List.zipWith matAdd (gradAccum net sig b1in b1out b1in.length).1
        (gradAccum net sig b2in b2out b2in.length).1,
       List.zipWith matAdd (gradAccum net sig b1in b1out b1in.length).2
        (gradAccum net sig b2in b2out b2in.length).2) := by
  rw [gradAccum_spec net sig _ _ hL, gradAccum_spec net sig _ _ hL,
    gradAccum_spec net sig _ _ hL]
  simp only [Prod.mk.injEq]
  constructor
  · rw [zipWith_matAdd_map_range _ _ _ (by simp)]
    apply List.map_congr_left
    intro i hi
    rw [getD_map_range _ (List.mem_range.mp hi)]
    refine Mat.ext rfl rfl ?_
    funext r c
    show (∑ k ∈ Finset.range (b1in.length + b2in.length), _) = _ + _
    rw [Finset.sum_range_add]
    congr 1
    · apply Finset.sum_congr rfl
      intro k hk
      have hk1 : k < b1in.length := Finset.mem_range.mp hk
      rw [List.getD_append _ _ _ _ hk1, List.getD_append _ _ _ _ (by omega)]
    · apply Finset.sum_congr rfl
      intro k hk
      rw [List.getD_append_right _ _ _ _ (by omega),
        List.getD_append_right _ _ _ _ (by omega), Nat.add_sub_cancel_left,
        h1, Nat.add_sub_cancel_left]
  · rw [zipWith_matAdd_map_range _ _ _ (by simp)]
    apply List.map_congr_left
    intro i hi
    rw [getD_map_range _ (List.mem_range.mp hi)]
    refine Mat.ext rfl rfl ?_
    funext r c
    show (∑ k ∈ Finset.range (b1in.length + b2in.length), _) = _ + _
    rw [Finset.sum_range_add]
    congr 1
    · apply Finset.sum_congr rfl
      intro k hk
      have hk1 : k < b1in.length := Finset.mem_range.mp hk
      rw [List.getD_append _ _ _ _ hk1, List.getD_append _ _ _ _ (by omega)]
    · apply Finset.sum_congr rfl
      intro k hk
      rw [List.getD_append_right _ _ _ _ (by omega),
        List.getD_append_right _ _ _ _ (by omega), Nat.add_sub_cancel_left,
        h1, Nat.add_sub_cancel_left]

/-- Witness for C6 at a concrete one-layer network over ℚ with two one-example
half-batches. -/
theorem claim_C6_witness :
    1 ≤ (⟨[1, 1], [⟨1, 1, ⟨1, 1, fun _ _ => 0⟩, ⟨1, 1, fun _ _ => 0⟩⟩]⟩ :
      FNN ℚ).fully_connected_layers.length ∧
    ([(⟨1, 1, fun _ _ => 1⟩ : Mat ℚ)].length =
      [(⟨1, 1, fun _ _ => 0⟩ : Mat ℚ)].length) ∧
    (gradAccum (⟨[1, 1], [⟨1, 1, ⟨1, 1, fun _ _ => 0⟩, ⟨1, 1, fun _ _ => 0⟩⟩]⟩ :
        FNN ℚ) (fun t => t) ([⟨1, 1, fun _ _ => 0⟩] ++ [⟨1, 1, fun _ _ => 1⟩])
        ([⟨1, 1, fun _ _ => 1⟩] ++ [⟨1, 1, fun _ _ => 0⟩])
        ([(⟨1, 1, fun _ _ => 0⟩ : Mat ℚ)].length +
          [(⟨1, 1, fun _ _ => 1⟩ : Mat ℚ)].length) =
      (List.zipWith matAdd
        (gradAccum (⟨[1, 1], [⟨1, 1, ⟨1, 1, fun _ _ => 0⟩, ⟨1, 1, fun _ _ => 0⟩⟩]⟩ :
          FNN ℚ) (fun t => t) [⟨1, 1, fun _ _ => 0⟩] [⟨1, 1, fun _ _ => 1⟩]
          [(⟨1, 1, fun _ _ => 0⟩ : Mat ℚ)].length).1
        (gradAccum (⟨[1, 1], [⟨1, 1, ⟨1, 1, fun _ _ => 0⟩, ⟨1, 1, fun _ _ => 0⟩⟩]⟩ :
          FNN ℚ) (fun t => t) [⟨1, 1, fun _ _ => 1⟩] [⟨1, 1, fun _ _ => 0⟩]
          [(⟨1, 1, fun _ _ => 1⟩ : Mat ℚ)].length).1,
       List.zipWith matAdd
        (gradAccum (⟨[1, 1], [⟨1, 1, ⟨1, 1, fun _ _ => 0⟩, ⟨1, 1, fun _ _ => 0⟩⟩]⟩ :
          FNN ℚ) (fun t => t) [⟨1, 1, fun _ _ => 0⟩] [⟨1, 1, fun _ _ => 1⟩]
          [(⟨1, 1, fun _ _ => 0⟩ : Mat ℚ)].length).2
        (gradAccum (⟨[1, 1], [⟨1, 1, ⟨1, 1, fun _ _ => 0⟩, ⟨1, 1, fun _ _ => 0⟩⟩]⟩ :
          FNN ℚ) (fun t => t) [⟨1, 1, fun _ _ => 1⟩] [⟨1, 1, fun _ _ => 0⟩]
          [(⟨1, 1, fun _ _ => 1⟩ : Mat ℚ)].length).2)) :=
  ⟨by decide, by decide,
    claim_C6_batch_split_invariance
      (⟨[1, 1], [⟨1, 1, ⟨1, 1, fun _ _ => 0⟩, ⟨1, 1, fun _ _ => 0⟩⟩]⟩ : FNN ℚ)
      (fun t => t) [⟨1, 1, fun _ _ => 0⟩] [⟨1, 1, fun _ _ => 1⟩]
      [⟨1, 1, fun _ _ => 1⟩] [⟨1, 1, fun _ _ => 0⟩] (by decide) (by decide)⟩

/-- The logistic sigmoid is positive. -/
lemma sigmoid_pos (x : ℝ) : 0 < sigmoid x := by
  unfold sigmoid
  positivity

/-- The logistic sigmoid is below one. -/
lemma sigmoid_lt_one (x : ℝ) : sigmoid x < 1 := by
  unfold sigmoid
  rw [div_lt_one (by positivity)]
  have h := Real.exp_pos (-x)
  linarith

/-- With at least one layer, the feedforward loop ends with an element-wise sigmoid. -/
lemma ffLoop_ends_in_sigmoid (sig : K → K) :
    ∀ (ls : List (FNNFullyConnectedLayer K)) (a : Mat K), ls ≠ [] →
      ∃ M, ffLoop sig ls a = matSigmoid sig M
  | [], _, h => absurd rfl h
  | [l], a, _ => ⟨matAdd (matMul l.W a) l.B, rfl⟩
  | l :: l2 :: ls, a, _ =>
      ffLoop_ends_in_sigmoid sig (l2 :: ls) (layerStep sig l a) (by simp)

/-- C8: for every network with at least one fully-connected layer and every input matrix
of shape (input-layer-node-count x 1), every element of the column vector returned by
feedforward with the logistic sigmoid lies strictly between 0 and 1. -/
theorem claim_C8_output_in_open_unit_interval (net : FNN ℝ) (X : Mat ℝ)
    (hL : 1 ≤ net.fully_connected_layers.length)
    (hI : X.I = (net.layers.getD 0 0).toNat) (hJ : X.J = 1) :
    ∀ i j, 0 < (feedforward net sigmoid X).entry i j ∧
      (feedforward net sigmoid X).entry i j < 1 := by
  have hne : net.fully_connected_layers ≠ [] := by
    intro h
    rw [h] at hL
    exact absurd hL (by simp)
  obtain ⟨M, hM⟩ := ffLoop_ends_in_sigmoid sigmoid net.fully_connected_layers X hne
  intro i j
  show 0 < (ffLoop sigmoid net.fully_connected_layers X).entry i j ∧
    (ffLoop sigmoid net.fully_connected_layers X).entry i j < 1
  rw [hM]
  exact ⟨sigmoid_pos _, sigmoid_lt_one _⟩

/-- Witness for C8 at a concrete one-layer network over ℝ. -/
theorem claim_C8_witness :
    1 ≤ (⟨[1, 1], [⟨1, 1, ⟨1, 1, fun _ _ => 0⟩, ⟨1, 1, fun _ _ => 0⟩⟩]⟩ :
      FNN ℝ).fully_connected_layers.length ∧
    ((⟨1, 1, fun _ _ => 0⟩ : Mat ℝ).I =
      (((⟨[1, 1], [⟨1, 1, ⟨1, 1, fun _ _ => 0⟩, ⟨1, 1, fun _ _ => 0⟩⟩]⟩ :
        FNN ℝ)).layers.getD 0 0).toNat) ∧
    (0 < (feedforward (⟨[1, 1], [⟨1, 1, ⟨1, 1, fun _ _ => 0⟩, ⟨1, 1, fun _ _ => 0⟩⟩]⟩ :
        FNN ℝ) sigmoid ⟨1, 1, fun _ _ => 0⟩).entry 0 0 ∧
      (feedforward (⟨[1, 1], [⟨1, 1, ⟨1, 1, fun _ _ => 0⟩, ⟨1, 1, fun _ _ => 0⟩⟩]⟩ :
        FNN ℝ) sigmoid ⟨1, 1, fun _ _ => 0⟩).entry 0 0 < 1) :=
  ⟨le_refl 1, rfl,
    claim_C8_output_in_open_unit_interval
      (⟨[1, 1], [⟨1, 1, ⟨1, 1, fun _ _ => 0⟩, ⟨1, 1, fun _ _ => 0⟩⟩]⟩ : FNN ℝ)
      ⟨1, 1, fun _ _ => 0⟩ (le_refl 1) rfl rfl 0 0⟩

end DS
